import Mathlib

/-!
Shallow embedding of the `bloom-filter` Rust crate (src/lib.rs).

Modelling conventions:
* Rust `u8` is `Fin 256`; a value of the generic parameter `T : AsRef<[u8]>`
  is represented by its byte view, a `List Byte`.
* Rust `u64` arithmetic is `Nat` arithmetic reduced `% 2^64` wherever the
  Rust code can wrap (`wrapping_mul`, `rotate_left`, additions inside
  SipHash).  The target is a 64-bit little-endian platform, so
  `usize = u64` and the `as u64` / `as usize` casts in the source are exact.
* Fallible operations return `Option`: `x % m` on `u64` panics in Rust when
  `m = 0`, and `BitVec::set` panics on an out-of-range index; both are
  modelled by `none`.
* The three hashers are external crates, embedded from their published
  sources: `fnv::FnvHasher` (FNV-1a, 64 bit), `fxhash::FxHasher` (64-bit
  variant), and `std::collections::hash_map::DefaultHasher`
  (SipHash-1-3 with zero keys; since `lib.rs` performs a single `write`
  followed by `finish`, the streaming hasher coincides with the one-shot
  SipHash-1-3 computation embedded here).
-/

/-- Bytes of the hashed value view (`u8`). -/
abbrev Byte := Fin 256

/-- The `u64` modulus. -/
def U64 : Nat := 2 ^ 64

/-- Little-endian read of a byte slice into a natural number (the
`load_int_le!` / `read_u64`-style reads used by the hashers). -/
def readLE (bytes : List Byte) : Nat :=
  bytes.foldr (fun b acc => acc * 256 + b.val) 0

/-- Rotate-left on 64-bit words (`u64::rotate_left`), for `0 < n < 64`. -/
def rotl64 (x n : Nat) : Nat :=
  ((x * 2 ^ n) % U64) ||| (x / 2 ^ (64 - n))

/-! ## fnv::FnvHasher (FNV-1a, 64 bit) -/

/-- Initial state of `FnvHasher::default()`: the FNV-1a offset basis. -/
def fnvOffsetBasis : Nat := 0xcbf29ce484222325

/-- The FNV-1a 64-bit prime. -/
def fnvPrime : Nat := 0x100000001b3

/-- One step of `FnvHasher::write`: `hash = (hash ^ byte).wrapping_mul(prime)`. -/
def fnvStep (h : Nat) (b : Byte) : Nat :=
  ((h ^^^ b.val) * fnvPrime) % U64

/-- State of `FnvHasher` after writing `bytes` into state `h`. -/
def fnvWrite (h : Nat) (bytes : List Byte) : Nat :=
  bytes.foldl fnvStep h

/-- Digest produced by `FnvHasher::default()` + `write(bytes)` + `finish()`. -/
def fnvFinish (bytes : List Byte) : Nat :=
  fnvWrite fnvOffsetBasis bytes

/-! ## fxhash::FxHasher (64-bit platform) -/

/-- The 64-bit multiplier seed of `fxhash`. -/
def fxSeed : Nat := 0x517cc1b727220a95

/-- Step `FxHasher::add_to_hash`: `hash = (hash.rotate_left(5) ^ word) * seed`
with wrapping multiplication. -/
def fxHashWord (h w : Nat) : Nat :=
  ((rotl64 h 5 ^^^ w) * fxSeed) % U64

/-- Tail of `FxHasher::write` once fewer than 8 bytes remain: an optional
4-byte word, then a 2-byte word, then a final single byte, little-endian. -/
def fxWriteTail (h : Nat) (bytes : List Byte) : Nat :=
  let p1 : Nat × List Byte :=
    if 4 ≤ bytes.length then (fxHashWord h (readLE (bytes.take 4)), bytes.drop 4)
    else (h, bytes)
  let p2 : Nat × List Byte :=
    if 2 ≤ p1.2.length then (fxHashWord p1.1 (readLE (p1.2.take 2)), p1.2.drop 2)
    else p1
  match p2.2 with
  | [] => p2.1
  | b :: _ => fxHashWord p2.1 b.val

/-- Loop of `FxHasher::write` on a 64-bit platform: consume little-endian
8-byte words while at least 8 bytes remain, then the tail. -/
def fxWrite (h : Nat) : List Byte → Nat
  | b1 :: b2 :: b3 :: b4 :: b5 :: b6 :: b7 :: b8 :: rest =>
    fxWrite (fxHashWord h (readLE [b1, b2, b3, b4, b5, b6, b7, b8])) rest
  | bytes => fxWriteTail h bytes

/-- Digest produced by `FxHasher::default()` (state 0) + `write` + `finish`. -/
def fxFinish (bytes : List Byte) : Nat :=
  fxWrite 0 bytes

/-! ## std `DefaultHasher` (SipHash-1-3 with keys `(0, 0)`) -/

/-- The four 64-bit words of the SipHash internal state. -/
structure SipState where
  v0 : Nat
  v1 : Nat
  v2 : Nat
  v3 : Nat
deriving Repr, DecidableEq

/-- One SipHash round. -/
def sipRound (s : SipState) : SipState :=
  let v0 := (s.v0 + s.v1) % U64
  let v1 := rotl64 s.v1 13 ^^^ v0
  let v0 := rotl64 v0 32
  let v2 := (s.v2 + s.v3) % U64
  let v3 := rotl64 s.v3 16 ^^^ v2
  let v0 := (v0 + v3) % U64
  let v3 := rotl64 v3 21 ^^^ v0
  let v2 := (v2 + v1) % U64
  let v1 := rotl64 v1 17 ^^^ v2
  let v2 := rotl64 v2 32
  ⟨v0, v1, v2, v3⟩

/-- Compression of one 8-byte message word (SipHash-1-3: one round). -/
def sipBlock (s : SipState) (m : Nat) : SipState :=
  let s := { s with v3 := s.v3 ^^^ m }
  let s := sipRound s
  { s with v0 := s.v0 ^^^ m }

/-- Consume the message: full 8-byte little-endian words, then the final
block of the at most 7 remaining bytes with the total length (mod 256) in
the top byte. -/
def sipBlocks (s : SipState) (len : Nat) : List Byte → SipState
  | b1 :: b2 :: b3 :: b4 :: b5 :: b6 :: b7 :: b8 :: rest =>
    sipBlocks (sipBlock s (readLE [b1, b2, b3, b4, b5, b6, b7, b8])) len rest
  | bytes => sipBlock s (((len % 256) * 2 ^ 56) ||| readLE bytes)

/-- Initial SipHash state for keys `(0, 0)`, as built by
`DefaultHasher::default()` (the four standard constants XORed with zero). -/
def sipInit : SipState :=
  ⟨0x736f6d6570736575, 0x646f72616e646f6d, 0x6c7967656e657261, 0x7465646279746573⟩

/-- Digest of `DefaultHasher::default()` + `write(bytes)` + `finish()`:
one-shot SipHash-1-3 with zero keys (3 finalization rounds). -/
def defaultFinish (bytes : List Byte) : Nat :=
  let s := sipBlocks sipInit bytes.length bytes
  let s := { s with v2 := s.v2 ^^^ 0xff }
  let s := sipRound (sipRound (sipRound s))
  ((s.v0 ^^^ s.v1) ^^^ s.v2) ^^^ s.v3

/-! ## The bit vector (`bit_vec::BitVec`) -/

/-- Model of `BitVec::get`: `None` when the index is out of range. -/
def bvGet (bits : List Bool) (i : Nat) : Option Bool :=
  bits[i]?

/-- Model of `BitVec::set`: panics (here `none`) when the index is out of range. -/
def bvSet (bits : List Bool) (i : Nat) (x : Bool) : Option (List Bool) :=
  if i < bits.length then some (bits.set i x) else none

/-! ## The bloom filter (src/lib.rs) -/

/-- The `BloomFilter<T>` struct: its `BitVec` of membership bits (the
`PhantomData` marker carries no state and is omitted). -/
structure BloomFilter where
  bits : List Bool
deriving Repr, DecidableEq

/-- The `BloomFilterArgs` struct. -/
structure BloomFilterArgs where
  bits : Nat
deriving Repr, DecidableEq

/-- Instance `Default for BloomFilterArgs`: 1024 bits. -/
def BloomFilterArgs.default : BloomFilterArgs :=
  ⟨1024⟩

/-- The `BloomFilterContainsResponse` enum. -/
inductive BloomFilterContainsResponse where
  | No
  | Maybe
deriving Repr, DecidableEq

/-- Constructor `BloomFilter::with`: a bit vector of `args.bits` bits, all
false.  (Since `with` is a Lean keyword, the name here is `withArgs`.) -/
def BloomFilter.withArgs (args : BloomFilterArgs) : BloomFilter :=
  ⟨List.replicate args.bits false⟩

/-- Constructor `BloomFilter::new`: the default arguments. -/
def BloomFilter.new : BloomFilter :=
  BloomFilter.withArgs BloomFilterArgs.default

/-- The pure index triple for a bit-vector length `m > 0`:
each digest reduced `% m`. -/
def idxsOf (m : Nat) (value : List Byte) : List Nat :=
  [fnvFinish value % m, fxFinish value % m, defaultFinish value % m]

/-- Method `BloomFilter::calculate_hash_indices`: the three digests of
`value` reduced modulo `self.bits.len()`.  In Rust `x % m` on `u64` panics
when `m = 0`, modelled by `none`. -/
def BloomFilter.calculate_hash_indices (f : BloomFilter) (value : List Byte) :
    Option (List Nat) :=
  let m := f.bits.length
  if m = 0 then none else some (idxsOf m value)

/-- The loop body of `BloomFilter::insert`: set each index in order
(`BitVec::set` panics on an out-of-range index). -/
def setAll (bits : List Bool) : List Nat → Option (List Bool)
  | [] => some bits
  | i :: rest => (bvSet bits i true).bind (fun b => setAll b rest)

/-- Method `BloomFilter::insert`. -/
def BloomFilter.insert (f : BloomFilter) (value : List Byte) : Option BloomFilter :=
  (f.calculate_hash_indices value).bind
    (fun idxs => (setAll f.bits idxs).map BloomFilter.mk)

/-- The loop of `BloomFilter::contains`: return `No` on the first index
whose bit is not set (`get(idx).unwrap_or(false)`), else `Maybe`. -/
def containsLoop (bits : List Bool) : List Nat → BloomFilterContainsResponse
  | [] => .Maybe
  | i :: rest =>
    if !((bvGet bits i).getD false) then .No else containsLoop bits rest

/-- Method `BloomFilter::contains`. -/
def BloomFilter.contains (f : BloomFilter) (value : List Byte) :
    Option BloomFilterContainsResponse :=
  (f.calculate_hash_indices value).map (fun idxs => containsLoop f.bits idxs)

/-- A sequence of `insert` calls, left to right. -/
def insertAll (f : BloomFilter) : List (List Byte) → Option BloomFilter
  | [] => some f
  | v :: rest => (f.insert v).bind (fun g => insertAll g rest)

/-! ## Basic lemmas about the embedded operations -/

/-- Pure form of the insert loop, defined for reasoning; `setAll` agrees
with it whenever every index is in range. -/
def setList (bits : List Bool) : List Nat → List Bool
  | [] => bits
  | i :: rest => setList (bits.set i true) rest

theorem setList_length (idxs : List Nat) (bits : List Bool) :
    (setList bits idxs).length = bits.length := by
  induction idxs generalizing bits with
  | nil => rfl
  | cons i rest ih => simp [setList, ih, List.length_set]

theorem setAll_eq_setList (idxs : List Nat) (bits : List Bool)
    (h : ∀ i ∈ idxs, i < bits.length) :
    setAll bits idxs = some (setList bits idxs) := by
  induction idxs generalizing bits with
  | nil => rfl
  | cons i rest ih =>
    have hi : i < bits.length := h i (by simp)
    rw [setAll, bvSet, if_pos hi, Option.some_bind, setList]
    exact ih _ (fun j hj => by rw [List.length_set]; exact h j (by simp [hj]))

theorem setList_getElem? (idxs : List Nat) (bits : List Bool) (j : Nat) :
    (setList bits idxs)[j]? =
      if j ∈ idxs ∧ j < bits.length then some true else bits[j]? := by
  induction idxs generalizing bits with
  | nil => simp [setList]
  | cons i rest ih =>
    rw [setList, ih, List.length_set, List.getElem?_set]
    by_cases h2 : j < bits.length
    · by_cases h1 : j ∈ rest
      · simp [h1, h2]
      · by_cases h3 : i = j
        · simp [h1, h2, h3]
        · simp [h1, h2, h3, Ne.symm h3]
    · have hn : bits[j]? = none := List.getElem?_eq_none (Nat.le_of_not_lt h2)
      by_cases h3 : i = j <;> simp [h2, h3, hn]

theorem getD_setList_of_mem {idxs : List Nat} {bits : List Bool} {j : Nat}
    (h1 : j ∈ idxs) (h2 : j < bits.length) :
    ((setList bits idxs)[j]?).getD false = true := by
  rw [setList_getElem?, if_pos ⟨h1, h2⟩]; rfl

theorem getD_setList_mono {idxs : List Nat} {bits : List Bool} {j : Nat}
    (h : (bits[j]?).getD false = true) :
    ((setList bits idxs)[j]?).getD false = true := by
  rw [setList_getElem?]
  split
  · rfl
  · exact h

theorem containsLoop_eq_maybe (bits : List Bool) (idxs : List Nat) :
    containsLoop bits idxs = .Maybe ↔
      ∀ i ∈ idxs, (bits[i]?).getD false = true := by
  induction idxs with
  | nil => simp [containsLoop]
  | cons i rest ih =>
    rw [containsLoop, List.forall_mem_cons, ← ih]
    cases hb : ((bits[i]?).getD false) <;> simp [bvGet, hb]

theorem withArgs_bits_length (args : BloomFilterArgs) :
    (BloomFilter.withArgs args).bits.length = args.bits := by
  simp [BloomFilter.withArgs]

theorem calculate_hash_indices_pos (f : BloomFilter) (v : List Byte)
    (h : 0 < f.bits.length) :
    f.calculate_hash_indices v = some (idxsOf f.bits.length v) := by
  rw [BloomFilter.calculate_hash_indices, if_neg (by omega)]

theorem calculate_hash_indices_zero (f : BloomFilter) (v : List Byte)
    (h : f.bits.length = 0) :
    f.calculate_hash_indices v = none := by
  rw [BloomFilter.calculate_hash_indices, if_pos h]

theorem idxsOf_lt (m : Nat) (v : List Byte) (h : 0 < m) :
    ∀ i ∈ idxsOf m v, i < m := by
  intro i hi
  simp only [idxsOf, List.mem_cons, List.not_mem_nil, or_false] at hi
  rcases hi with hi | hi | hi <;> subst hi <;> exact Nat.mod_lt _ h

theorem insert_pos (f : BloomFilter) (v : List Byte) (h : 0 < f.bits.length) :
    f.insert v = some ⟨setList f.bits (idxsOf f.bits.length v)⟩ := by
  rw [BloomFilter.insert, calculate_hash_indices_pos f v h, Option.some_bind,
    setAll_eq_setList _ _ (idxsOf_lt _ _ h)]
  rfl

theorem insert_zero (f : BloomFilter) (v : List Byte) (h : f.bits.length = 0) :
    f.insert v = none := by
  rw [BloomFilter.insert, calculate_hash_indices_zero f v h, Option.none_bind]

theorem contains_pos (f : BloomFilter) (v : List Byte) (h : 0 < f.bits.length) :
    f.contains v = some (containsLoop f.bits (idxsOf f.bits.length v)) := by
  rw [BloomFilter.contains, calculate_hash_indices_pos f v h]
  rfl

theorem contains_zero (f : BloomFilter) (v : List Byte) (h : f.bits.length = 0) :
    f.contains v = none := by
  rw [BloomFilter.contains, calculate_hash_indices_zero f v h]
  rfl

theorem insert_length (f f' : BloomFilter) (v : List Byte)
    (h : f.insert v = some f') : f'.bits.length = f.bits.length := by
  rcases Nat.eq_zero_or_pos f.bits.length with h0 | hpos
  · rw [insert_zero f v h0] at h; cases h
  · rw [insert_pos f v hpos] at h
    injection h with h
    subst h
    exact setList_length _ _

theorem insert_contains_self (f f' : BloomFilter) (v : List Byte)
    (h : f.insert v = some f') : f'.contains v = some .Maybe := by
  rcases Nat.eq_zero_or_pos f.bits.length with h0 | hpos
  · rw [insert_zero f v h0] at h; cases h
  · rw [insert_pos f v hpos] at h
    injection h with h
    subst h
    have hlen : (setList f.bits (idxsOf f.bits.length v)).length = f.bits.length :=
      setList_length _ _
    rw [contains_pos _ v (by simp [hlen, hpos])]
    congr 1
    show containsLoop _ (idxsOf (setList f.bits (idxsOf f.bits.length v)).length v) = _
    rw [hlen, containsLoop_eq_maybe]
    intro i hi
    exact getD_setList_of_mem hi (idxsOf_lt _ _ hpos i hi)

theorem contains_maybe_insert (f f' : BloomFilter) (v w : List Byte)
    (hc : f.contains v = some .Maybe) (hi : f.insert w = some f') :
    f'.contains v = some .Maybe := by
  rcases Nat.eq_zero_or_pos f.bits.length with h0 | hpos
  · rw [contains_zero f v h0] at hc; cases hc
  · rw [contains_pos f v hpos] at hc
    injection hc with hc
    rw [insert_pos f w hpos] at hi
    injection hi with hi
    subst hi
    have hlen : (setList f.bits (idxsOf f.bits.length w)).length = f.bits.length :=
      setList_length _ _
    rw [contains_pos _ v (by simp [hlen, hpos])]
    congr 1
    show containsLoop _ (idxsOf (setList f.bits (idxsOf f.bits.length w)).length v) = _
    rw [hlen, containsLoop_eq_maybe]
    intro i hi
    exact getD_setList_mono ((containsLoop_eq_maybe _ _).mp hc i hi)

theorem insert_isSome (f : BloomFilter) (v : List Byte) (h : 0 < f.bits.length) :
    ∃ f', f.insert v = some f' :=
  ⟨_, insert_pos f v h⟩

theorem insertAll_pos (vs : List (List Byte)) (f : BloomFilter)
    (h : 0 < f.bits.length) :
    ∃ f', insertAll f vs = some f' ∧ f'.bits.length = f.bits.length := by
  induction vs generalizing f with
  | nil => exact ⟨f, rfl, rfl⟩
  | cons v rest ih =>
    obtain ⟨g, hg⟩ := insert_isSome f v h
    have hlen := insert_length f g v hg
    obtain ⟨f', h1, h2⟩ := ih g (by omega)
    exact ⟨f', by rw [insertAll, hg, Option.some_bind, h1], by omega⟩

theorem contains_maybe_insertAll (ws : List (List Byte)) (f f' : BloomFilter)
    (v : List Byte) (hc : f.contains v = some .Maybe)
    (h : insertAll f ws = some f') : f'.contains v = some .Maybe := by
  induction ws generalizing f with
  | nil => injection h with h; subst h; exact hc
  | cons w rest ih =>
    rw [insertAll] at h
    cases hg : f.insert w with
    | none => rw [hg, Option.none_bind] at h; cases h
    | some g =>
      rw [hg, Option.some_bind] at h
      exact ih g (contains_maybe_insert f g v w hc hg) h

theorem insertAll_contains_mem (vs : List (List Byte)) (f f' : BloomFilter)
    (v : List Byte) (hpos : 0 < f.bits.length) (hmem : v ∈ vs)
    (h : insertAll f vs = some f') : f'.contains v = some .Maybe := by
  induction vs generalizing f with
  | nil => cases hmem
  | cons w rest ih =>
    rw [insertAll] at h
    cases hg : f.insert w with
    | none => rw [hg, Option.none_bind] at h; cases h
    | some g =>
      rw [hg, Option.some_bind] at h
      have hglen : g.bits.length = f.bits.length := insert_length f g w hg
      rcases List.mem_cons.mp hmem with hv | hv
      · subst hv
        exact contains_maybe_insertAll rest g f' v (insert_contains_self f g v hg) h
      · exact ih g (by omega) hv h

theorem setList_setList_self (bits : List Bool) (idxs : List Nat) :
    setList (setList bits idxs) idxs = setList bits idxs := by
  apply List.ext_getElem?
  intro j
  rw [setList_getElem? idxs (setList bits idxs) j, setList_length]
  by_cases h : j ∈ idxs ∧ j < bits.length
  · rw [if_pos h, setList_getElem?, if_pos h]
  · rw [if_neg h]

theorem setList_setList_comm (bits : List Bool) (a b : List Nat) :
    setList (setList bits a) b = setList (setList bits b) a := by
  apply List.ext_getElem?
  intro j
  rw [setList_getElem? b (setList bits a) j, setList_getElem? a (setList bits b) j,
    setList_length, setList_length, setList_getElem? a bits j, setList_getElem? b bits j]
  by_cases ha : j ∈ a <;> by_cases hb : j ∈ b <;> by_cases hl : j < bits.length <;>
    simp [ha, hb, hl]

theorem insert_insert_comm (f : BloomFilter) (a b : List Byte) :
    (f.insert a).bind (fun g => g.insert b) =
      (f.insert b).bind (fun g => g.insert a) := by
  rcases Nat.eq_zero_or_pos f.bits.length with h0 | hpos
  · rw [insert_zero f a h0, insert_zero f b h0]
    rfl
  · rw [insert_pos f a hpos, insert_pos f b hpos, Option.some_bind, Option.some_bind]
    have hA : (setList f.bits (idxsOf f.bits.length a)).length = f.bits.length :=
      setList_length _ _
    have hB : (setList f.bits (idxsOf f.bits.length b)).length = f.bits.length :=
      setList_length _ _
    rw [insert_pos _ b (by simp [hA, hpos]), insert_pos _ a (by simp [hB, hpos])]
    show some (BloomFilter.mk
        (setList (setList f.bits (idxsOf f.bits.length a))
          (idxsOf (setList f.bits (idxsOf f.bits.length a)).length b))) =
      some (BloomFilter.mk
        (setList (setList f.bits (idxsOf f.bits.length b))
          (idxsOf (setList f.bits (idxsOf f.bits.length b)).length a)))
    rw [hA, hB, setList_setList_comm]

theorem insertAll_perm (vs vs' : List (List Byte)) (p : vs.Perm vs') :
    ∀ f, insertAll f vs = insertAll f vs' := by
  induction p with
  | nil => intro f; rfl
  | cons x p ih =>
    intro f
    rw [insertAll, insertAll]
    cases h : f.insert x with
    | none => rw [Option.none_bind, Option.none_bind]
    | some g => rw [Option.some_bind, Option.some_bind, ih g]
  | swap x y l =>
    intro f
    calc insertAll f (y :: x :: l)
        = ((f.insert y).bind (fun g => g.insert x)).bind
            (fun g => insertAll g l) := by
          cases h : f.insert y <;>
            simp [insertAll, h, Option.bind_assoc]
      _ = ((f.insert x).bind (fun g => g.insert y)).bind
            (fun g => insertAll g l) := by rw [insert_insert_comm]
      _ = insertAll f (x :: y :: l) := by
          cases h : f.insert x <;>
            simp [insertAll, h, Option.bind_assoc]
  | trans p q ih1 ih2 =>
    intro f
    rw [ih1 f, ih2 f]

theorem containsLoop_replicate_false (n i : Nat) (rest : List Nat) :
    containsLoop (List.replicate n false) (i :: rest) = .No := by
  have hg : ((List.replicate n false)[i]?).getD false = false := by
    rw [List.getElem?_replicate]
    rcases Nat.lt_or_ge i n with h | h
    · rw [if_pos h]; rfl
    · rw [if_neg (by omega)]; rfl
  rw [containsLoop]
  simp [bvGet, hg]

theorem withArgs_contains_no (args : BloomFilterArgs) (v : List Byte)
    (h : 0 < args.bits) :
    (BloomFilter.withArgs args).contains v = some .No := by
  rw [contains_pos _ v (by rw [withArgs_bits_length]; omega)]
  congr 1
  simp only [idxsOf, BloomFilter.withArgs]
  exact containsLoop_replicate_false _ _ _

/-! ## Claim theorems -/

/-- C1 (no false negatives): for every filter constructed with positive
capacity and every sequence of inserted values containing `v`, a subsequent
`contains(v)` returns `Maybe` (`PossiblyPresent`), regardless of which and
how many other values were inserted before, between, or after `v`. -/
theorem no_false_negatives (args : BloomFilterArgs) (vs : List (List Byte))
    (v : List Byte) (f : BloomFilter) (hpos : 0 < args.bits) (hmem : v ∈ vs)
    (h : insertAll (BloomFilter.withArgs args) vs = some f) :
    f.contains v = some .Maybe :=
  insertAll_contains_mem vs _ f v (by rw [withArgs_bits_length]; omega) hmem h

/-- Witness for C1 at capacity 1, inserting the empty byte sequence. -/
theorem no_false_negatives_witness :
    0 < (⟨1⟩ : BloomFilterArgs).bits ∧ ([] : List Byte) ∈ [([] : List Byte)] ∧
      insertAll (BloomFilter.withArgs ⟨1⟩) [[]] = some ⟨[true]⟩ ∧
      BloomFilter.contains ⟨[true]⟩ [] = some .Maybe :=
  ⟨by decide, by decide, by decide,
    no_false_negatives ⟨1⟩ [[]] [] ⟨[true]⟩ (by decide) (by decide) (by decide)⟩

/-- C2 (empty filter): a freshly constructed filter (via `new()` or
`with(args)` with positive capacity) on which `insert` has never been
called answers `No` (`Absent`) for every value. -/
theorem empty_filter_contains_no (args : BloomFilterArgs) (v : List Byte)
    (h : 0 < args.bits) :
    (BloomFilter.withArgs args).contains v = some .No ∧
      BloomFilter.new.contains v = some .No :=
  ⟨withArgs_contains_no args v h,
    withArgs_contains_no BloomFilterArgs.default v (by decide)⟩

/-- Witness for C2 at capacity 1 and the empty byte sequence. -/
theorem empty_filter_contains_no_witness :
    0 < (⟨1⟩ : BloomFilterArgs).bits ∧
      ((BloomFilter.withArgs ⟨1⟩).contains [] = some .No ∧
        BloomFilter.new.contains [] = some .No) :=
  ⟨by decide, empty_filter_contains_no ⟨1⟩ [] (by decide)⟩

/-- C3, counterexample: the claim says construction with zero capacity
fails fast and that no failure ever surfaces during `insert` or `contains`.
In the code, `BloomFilter::with({bits: 0})` succeeds and silently produces
a filter (with an empty bit vector); the very first `insert` or `contains`
then faults (modulo-by-zero panic inside `calculate_hash_indices`,
modelled by `none`) — failure surfaces at use, not at construction. -/
theorem zero_capacity_construction_counterexample :
    BloomFilter.withArgs ⟨0⟩ = ⟨[]⟩ ∧
      (BloomFilter.withArgs ⟨0⟩).insert [] = none ∧
      (BloomFilter.withArgs ⟨0⟩).contains [] = none := by decide

/-- C3, amended: construction with a capacity of zero bits does not fail;
`with` silently produces a filter with an empty bit array, and the
modulo-by-zero fault instead surfaces on every subsequent `insert` or
`contains` call (a panic inside `calculate_hash_indices`). -/
theorem zero_capacity_faults_at_use (v : List Byte) :
    (BloomFilter.withArgs ⟨0⟩).calculate_hash_indices v = none ∧
      (BloomFilter.withArgs ⟨0⟩).insert v = none ∧
      (BloomFilter.withArgs ⟨0⟩).contains v = none :=
  ⟨calculate_hash_indices_zero _ v rfl, insert_zero _ v rfl, contains_zero _ v rfl⟩

/-- C4 (totality): for a filter constructed with positive capacity, every
sequence of `insert` calls succeeds, and on the resulting filter both
`insert` and `contains` complete without any runtime error on every
byte-convertible input, including the empty byte sequence. -/
theorem insert_contains_total (args : BloomFilterArgs) (h : 0 < args.bits)
    (vs : List (List Byte)) (v : List Byte) :
    ∃ f, insertAll (BloomFilter.withArgs args) vs = some f ∧
      (∃ f', f.insert v = some f') ∧ (∃ r, f.contains v = some r) := by
  obtain ⟨f, h1, h2⟩ := insertAll_pos vs (BloomFilter.withArgs args)
    (by rw [withArgs_bits_length]; omega)
  have hpos : 0 < f.bits.length := by rw [h2, withArgs_bits_length]; omega
  exact ⟨f, h1, ⟨_, insert_pos f v hpos⟩, ⟨_, contains_pos f v hpos⟩⟩

/-- Witness for C4 at capacity 1, with one insertion of the empty byte
sequence and a query for it. -/
theorem insert_contains_total_witness :
    0 < (⟨1⟩ : BloomFilterArgs).bits ∧
      ∃ f, insertAll (BloomFilter.withArgs ⟨1⟩) [[]] = some f ∧
        (∃ f', f.insert [] = some f') ∧ (∃ r, f.contains [] = some r) :=
  ⟨by decide, insert_contains_total ⟨1⟩ (by decide) [[]] []⟩

/-- C5 (idempotence of insert): inserting the same value twice leaves the
bit array in exactly the state of inserting it once (so all subsequent
`contains` results agree).  This holds for every filter state, with no
capacity hypothesis: with zero capacity both computations panic (`none`). -/
theorem insert_idempotent (f : BloomFilter) (v : List Byte) :
    (f.insert v).bind (fun g => g.insert v) = f.insert v := by
  rcases Nat.eq_zero_or_pos f.bits.length with h0 | hpos
  · rw [insert_zero f v h0]
    rfl
  · rw [insert_pos f v hpos, Option.some_bind]
    have hlen : (setList f.bits (idxsOf f.bits.length v)).length = f.bits.length :=
      setList_length _ _
    rw [insert_pos _ v (by show 0 < (setList f.bits (idxsOf f.bits.length v)).length; rw [hlen]; exact hpos)]
    show some (BloomFilter.mk (setList (setList f.bits (idxsOf f.bits.length v))
        (idxsOf (setList f.bits (idxsOf f.bits.length v)).length v))) = _
    rw [hlen, setList_setList_self]

/-- C6 (monotonicity): once `contains(v)` returns `Maybe` on a filter, it
still returns `Maybe` after any further sequence of `insert` calls — no
operation ever clears a set bit. -/
theorem contains_monotone (f f' : BloomFilter) (v : List Byte)
    (ws : List (List Byte)) (hc : f.contains v = some .Maybe)
    (h : insertAll f ws = some f') :
    f'.contains v = some .Maybe :=
  contains_maybe_insertAll ws f f' v hc h

/-- Witness for C6 on the one-bit filter whose bit is set. -/
theorem contains_monotone_witness :
    BloomFilter.contains ⟨[true]⟩ [] = some .Maybe ∧
      insertAll ⟨[true]⟩ [[]] = some ⟨[true]⟩ ∧
      BloomFilter.contains ⟨[true]⟩ [] = some .Maybe :=
  ⟨by decide, by decide,
    contains_monotone ⟨[true]⟩ ⟨[true]⟩ [] [[]] (by decide) (by decide)⟩

/-- C7 (index triple shape and range): for every value and every filter
with positive capacity `m`, `calculate_hash_indices` returns an ordered
sequence of exactly 3 indices, each a 64-bit digest reduced modulo `m` and
hence in `[0, m)`; duplicates are kept, not de-duplicated. -/
theorem hash_indices_three_in_range (f : BloomFilter) (v : List Byte)
    (h : 0 < f.bits.length) :
    ∃ l, f.calculate_hash_indices v = some l ∧ l.length = 3 ∧
      (∀ i ∈ l, i < f.bits.length) ∧
      l = [fnvFinish v % f.bits.length, fxFinish v % f.bits.length,
        defaultFinish v % f.bits.length] :=
  ⟨idxsOf f.bits.length v, calculate_hash_indices_pos f v h, rfl,
    idxsOf_lt _ _ h, rfl⟩

/-- Witness for C7 on a two-bit filter and the empty byte sequence. -/
theorem hash_indices_three_in_range_witness :
    0 < (BloomFilter.mk [false, false]).bits.length ∧
      ∃ l, (BloomFilter.mk [false, false]).calculate_hash_indices [] = some l ∧
        l.length = 3 ∧ (∀ i ∈ l, i < (BloomFilter.mk [false, false]).bits.length) ∧
        l = [fnvFinish [] % 2, fxFinish [] % 2, defaultFinish [] % 2] :=
  ⟨by decide, hash_indices_three_in_range ⟨[false, false]⟩ [] (by decide)⟩

/-- C8 (determinism): `calculate_hash_indices` is a pure function of the
value and the filter capacity alone — two filters with equal bit-vector
lengths yield identical index triples for the same value, and in this
embedding the call is a pure function, mutating nothing. -/
theorem hash_indices_deterministic (f g : BloomFilter) (v : List Byte)
    (h : f.bits.length = g.bits.length) :
    f.calculate_hash_indices v = g.calculate_hash_indices v := by
  simp only [BloomFilter.calculate_hash_indices, h]

/-- Witness for C8 on two different one-bit filters. -/
theorem hash_indices_deterministic_witness :
    (BloomFilter.mk [true]).bits.length = (BloomFilter.mk [false]).bits.length ∧
      (BloomFilter.mk [true]).calculate_hash_indices [] =
        (BloomFilter.mk [false]).calculate_hash_indices [] :=
  ⟨by decide, hash_indices_deterministic ⟨[true]⟩ ⟨[false]⟩ [] (by decide)⟩

/-- C9 (degenerate capacity 1): for a filter constructed with exactly one
bit, after inserting any single value, every query value has index triple
`[0, 0, 0]` and `contains` returns `Maybe` for it. -/
theorem capacity_one_degenerate (v : List Byte) :
    ∃ f', (BloomFilter.withArgs ⟨1⟩).insert v = some f' ∧
      ∀ w, f'.calculate_hash_indices w = some [0, 0, 0] ∧
        f'.contains w = some .Maybe := by
  have hidx : ∀ u : List Byte, idxsOf 1 u = [0, 0, 0] := by
    intro u
    simp [idxsOf, Nat.mod_one]
  refine ⟨⟨[true]⟩, ?_, fun w => ⟨?_, ?_⟩⟩
  · rw [insert_pos _ v (by decide)]
    show some (BloomFilter.mk (setList [false] (idxsOf 1 v))) = _
    rw [hidx v]
    rfl
  · rw [calculate_hash_indices_pos _ w (by decide)]
    show some (idxsOf 1 w) = _
    rw [hidx w]
  · rw [contains_pos _ w (by decide)]
    show some (containsLoop [true] (idxsOf 1 w)) = _
    rw [hidx w]
    rfl

/-- C10 (commutativity of insert): inserting `a` then `b` yields exactly
the same filter state as inserting `b` then `a`, from any starting state;
more generally, the result of inserting a sequence of values is invariant
under permutation of the sequence. -/
theorem insert_order_independent (f : BloomFilter) (a b : List Byte)
    (vs vs' : List (List Byte)) (p : vs.Perm vs') :
    ((f.insert a).bind (fun g => g.insert b) =
        (f.insert b).bind (fun g => g.insert a)) ∧
      insertAll f vs = insertAll f vs' :=
  ⟨insert_insert_comm f a b, insertAll_perm vs vs' p f⟩

/-- Witness for C10, swapping two insertions on a one-bit filter. -/
theorem insert_order_independent_witness :
    ([[], [(0 : Byte)]] : List (List Byte)).Perm [[(0 : Byte)], []] ∧
      (((BloomFilter.mk [false]).insert []).bind (fun g => g.insert [(0 : Byte)]) =
          ((BloomFilter.mk [false]).insert [(0 : Byte)]).bind (fun g => g.insert [])) ∧
        insertAll ⟨[false]⟩ [[], [(0 : Byte)]] = insertAll ⟨[false]⟩ [[(0 : Byte)], []] :=
  ⟨by decide, insert_order_independent ⟨[false]⟩ [] [(0 : Byte)]
    [[], [(0 : Byte)]] [[(0 : Byte)], []] (by decide)⟩
